import Mathlib

/-!
Verification development for the repository search tool (`src/main.py`).

The Python program has three stages:
* `get_repo_dir`: derive a cache directory name from the repository URL and
  run version-control commands (clone, or fetch/checkout/pull);
* `search_word_in_repo`: walk the files, tally per-extension file/line
  statistics, and collect files whose content contains the search term;
* `write_output`: serialize the collected matches to one flat text file.

Each Python function is shallowly embedded below.  Strings are Lean
`String`s (lists of characters); the external effects (subprocess calls,
file reads, printed error messages) are made explicit: the commands
`get_repo_dir` would issue become a list of `GitCmd`s, the directory walk
becomes a list of `SFile`s carrying each file's read outcome, and the
scanner returns an explicit `ScanState`.
-/

/-- The characters of the literal `".git"` used by
`repo_url.split('/')[-1].replace('.git', '')`. -/
def gitChars : List Char := ['.', 'g', 'i', 't']

/-- Embedding of Python `s.split('/')`: split at every `'/'`, keeping empty
pieces (so the result is never the empty list). -/
def splitSlash (cs : List Char) : List (List Char) :=
  match cs with
  | [] => [[]]
  | c :: rest =>
    if c = '/' then [] :: splitSlash rest
    else
      match splitSlash rest with
      | [] => [[c]]
      | h :: t => (c :: h) :: t

/-- Embedding of Python `s.replace('.git', '')`: remove every
non-overlapping occurrence of `".git"`, scanning left to right. -/
def stripGit (cs : List Char) : List Char :=
  match cs with
  | [] => []
  | [c] => [c]
  | [c1, c2] => [c1, c2]
  | [c1, c2, c3] => [c1, c2, c3]
  | c1 :: c2 :: c3 :: c4 :: rest =>
    if c1 = '.' ∧ c2 = 'g' ∧ c3 = 'i' ∧ c4 = 't' then stripGit rest
    else c1 :: stripGit (c2 :: c3 :: c4 :: rest)

/-- The last path segment of the URL: `repo_url.split('/')[-1]`. -/
def lastSegment (url : String) : List Char :=
  (splitSlash url.toList).getLastD []

/-- `repo_name = repo_url.split('/')[-1].replace('.git', '')`
(main.py line 13). -/
def get_repo_name (url : String) : String :=
  String.mk (stripGit (lastSegment url))

/-- `repo_path = os.path.join('./repo_cache', repo_name)` (main.py lines 14-16). -/
def cachePath (url : String) : String :=
  "./repo_cache/" ++ get_repo_name url

/-- Python truthiness of the optional `branch` argument (`if branch:`):
`None` and the empty string are falsy. -/
def branchTruthy : Option String → Bool
  | none => false
  | some s => s != ""

/-- One external version-control invocation made by `get_repo_dir`. -/
inductive GitCmd where
  | clone (url : String) (dest : String) (branchFlag : Option String)
  | fetch (path : String)
  | checkout (path : String) (branch : String)
  | pull (path : String)
deriving DecidableEq

/-- The sequence of version-control commands `get_repo_dir` issues
(main.py lines 18-30), as a function of whether the cache directory
already exists.  A clone carries `branchFlag = some b` exactly when the
Python code extends the command with `['--branch', branch]`. -/
def get_repo_dir_cmds (repoExists : Bool) (url : String) (branch : Option String) :
    List GitCmd :=
  if repoExists = false then
    [GitCmd.clone url (cachePath url)
      (if branchTruthy branch then branch else none)]
  else if branchTruthy branch then
    [GitCmd.fetch (cachePath url),
     GitCmd.checkout (cachePath url) (branch.getD ""),
     GitCmd.pull (cachePath url)]
  else []

/-- `pat` occurs as a contiguous substring of the second list
(embedding of Python's `in` operator on strings). -/
def substrB (pat : List Char) : List Char → Bool
  | [] => pat.isEmpty
  | c :: rest => pat.isPrefixOf (c :: rest) || substrB pat rest

/-- Outcome of `open(file_path, 'r', encoding='utf-8').read()` for one file:
the decoded content, a `UnicodeDecodeError`, or any other `Exception`
(main.py lines 56-77). -/
inductive ReadResult where
  | ok (content : String)
  | decodeError
  | otherError (msg : String)
deriving DecidableEq

/-- One regular file reached by the `os.walk` traversal (after the `.git`
directory has been pruned): its path relative to the repository root, its
base name (the `file` variable the extension is computed from), and the
outcome of reading it. -/
structure SFile where
  relPath : String
  name : String
  read : ReadResult
deriving DecidableEq

/-- Index of the last `'.'` in a list of characters, if any. -/
def lastDotIdx (cs : List Char) : Option Nat :=
  match cs with
  | [] => none
  | c :: rest =>
    match lastDotIdx rest with
    | some i => some (i + 1)
    | none => if c = '.' then some 0 else none

/-- Embedding of `os.path.splitext(file)[1]` on a base name: the suffix
from the last dot on, except that a name whose characters before that dot
are all dots (e.g. `".bashrc"`) has no extension. -/
def splitextExt (s : String) : String :=
  match lastDotIdx s.toList with
  | none => ""
  | some i =>
    if (s.toList.take i).any (fun c => c != '.') then String.mk (s.toList.drop i)
    else ""

/-- Embedding of Python `str.lower()` (ASCII letters). -/
def lowerStr (s : String) : String :=
  String.mk (s.toList.map Char.toLower)

/-- `extension = os.path.splitext(file)[1].lower()` (main.py line 50). -/
def extKey (f : SFile) : String :=
  lowerStr (splitextExt f.name)

/-- The guard `if allowed_extensions and extension not in allowed_extensions:
continue` (main.py line 53): skip exactly when the allow-list is truthy
(present and non-empty) and the extension is not a member. -/
def skipByExt (allowed : Option (List String)) (ext : String) : Bool :=
  match allowed with
  | none => false
  | some l => !l.isEmpty && !l.contains ext

/-- `num_lines = content.count('\n') + 1` (main.py line 60). -/
def pyNumLines (content : String) : Nat :=
  content.toList.count '\n' + 1

/-- The mutable state of one scan: the `extension_stats` mapping in
insertion order (extension, files counter, lines counter), the
`collected_files` list, and the error messages printed by the generic
`except` branch. -/
structure ScanState where
  stats : List (String × Nat × Nat)
  collected : List (String × String)
  errors : List String
deriving DecidableEq

/-- `extension_stats[extension]['files'] += 1;
extension_stats[extension]['lines'] += num_lines` on a defaultdict: the
first access of a key appends a fresh zero-initialized entry
(main.py lines 38, 63-64). -/
def bumpStats (stats : List (String × Nat × Nat)) (ext : String) (numLines : Nat) :
    List (String × Nat × Nat) :=
  match stats with
  | [] => [(ext, 1, numLines)]
  | (e, fl) :: rest =>
    if e = ext then (e, fl.1 + 1, fl.2 + numLines) :: rest
    else (e, fl) :: bumpStats rest ext numLines

/-- The `files` counter recorded for `ext`, or 0 when absent. -/
def statsFiles (stats : List (String × Nat × Nat)) (ext : String) : Nat :=
  match stats with
  | [] => 0
  | (e, fl) :: rest => if e = ext then fl.1 else statsFiles rest ext

/-- The `lines` counter recorded for `ext`, or 0 when absent. -/
def statsLines (stats : List (String × Nat × Nat)) (ext : String) : Nat :=
  match stats with
  | [] => 0
  | (e, fl) :: rest => if e = ext then fl.2 else statsLines rest ext

/-- The loop body of `search_word_in_repo` for one file
(main.py lines 48-77). -/
def processFile (word : String) (allowed : Option (List String)) (ignoreCase : Bool)
    (st : ScanState) (f : SFile) : ScanState :=
  if skipByExt allowed (extKey f) then st
  else
    match f.read with
    | ReadResult.ok content =>
      let numLines := pyNumLines content
      let newStats := bumpStats st.stats (extKey f) numLines
      let searchContent := if ignoreCase then lowerStr content else content
      let searchWord := if ignoreCase then lowerStr word else word
      let newCollected :=
        if substrB searchWord.toList searchContent.toList then
          st.collected ++ [(f.relPath, content)]
        else st.collected
      { stats := newStats, collected := newCollected, errors := st.errors }
    | ReadResult.decodeError => st
    | ReadResult.otherError msg =>
      { stats := st.stats, collected := st.collected,
        errors := st.errors ++ ["Error reading " ++ f.relPath ++ ": " ++ msg] }

/-- `search_word_in_repo` (main.py lines 34-93): fold the loop body over
the files in traversal order, starting from empty statistics and an empty
match list. -/
def search_word_in_repo (files : List SFile) (word : String)
    (allowed : Option (List String)) (ignoreCase : Bool) : ScanState :=
  files.foldl (processFile word allowed ignoreCase) (ScanState.mk [] [] [])

/-- `write_output` (main.py lines 95-101): the output file starts
truncated and receives, per match in order, the delimiter line, the raw
content, and one newline. -/
def write_output (collected : List (String × String)) : String :=
  collected.foldl
    (fun acc p => acc ++ "<filename>" ++ p.1 ++ "</filename>" ++ "\n" ++ p.2 ++ "\n")
    ""

/-- The concatenation, in input order, of one output block per match:
the delimiter line embedding the relative path, the raw content, and one
newline. -/
def concatBlocks : List (String × String) → String
  | [] => ""
  | p :: rest =>
    "<filename>" ++ p.1 ++ "</filename>" ++ "\n" ++ p.2 ++ "\n" ++ concatBlocks rest

/-- A file is counted in the statistics exactly when it passes the
extension filter and its read succeeds. -/
def countedB (allowed : Option (List String)) (f : SFile) : Bool :=
  !skipByExt allowed (extKey f) &&
    (match f.read with
     | ReadResult.ok _ => true
     | _ => false)

/-- The newline-count-plus-one quantity a file contributes to its
extension's `lines` counter (0 for a file that is never read). -/
def specFileLines (f : SFile) : Nat :=
  match f.read with
  | ReadResult.ok c => c.toList.count '\n' + 1
  | _ => 0

/-- The match-list entry a single file contributes, if any: its relative
path paired with its original content, present exactly when the file
passes the extension filter, reads successfully, and contains the search
term under the configured case rule. -/
def matchEntry (word : String) (allowed : Option (List String)) (ignoreCase : Bool)
    (f : SFile) : Option (String × String) :=
  match f.read with
  | ReadResult.ok c =>
    if skipByExt allowed (extKey f) then none
    else if substrB (if ignoreCase then lowerStr word else word).toList
                    (if ignoreCase then lowerStr c else c).toList then
      some (f.relPath, c)
    else none
  | _ => none

/-! ## Properties of the URL-to-name derivation -/

/-- A list containing no occurrence of `".git"` is left unchanged by
`stripGit`. -/
theorem stripGit_no_occ (cs : List Char) (h : substrB gitChars cs = false) :
    stripGit cs = cs := by
  induction cs using stripGit.induct with
  | case1 => rfl
  | case2 c => rfl
  | case3 c1 c2 => rfl
  | case4 c1 c2 c3 => rfl
  | case5 c1 c2 c3 c4 rest hcond ih =>
    exfalso
    obtain ⟨h1, h2, h3, h4⟩ := hcond
    subst h1; subst h2; subst h3; subst h4
    simp [substrB, gitChars, List.isPrefixOf] at h
  | case6 c1 c2 c3 c4 rest hcond ih =>
    rw [stripGit]
    simp only [if_neg hcond]
    rw [ih]
    simp [substrB] at h
    simp [substrB, h]

/-- When the only occurrence of `".git"` is a trailing suffix, `stripGit`
removes exactly that suffix. -/
theorem stripGit_append_git (cs : List Char) (h : substrB gitChars cs = false) :
    stripGit (cs ++ gitChars) = cs := by
  induction cs with
  | nil => rfl
  | cons c1 cs' ih =>
    match cs' with
    | [] =>
      show stripGit (c1 :: '.' :: 'g' :: 'i' :: 't' :: []) = [c1]
      rw [stripGit]
      have hne : ¬(c1 = '.' ∧ '.' = 'g' ∧ 'g' = 'i' ∧ 'i' = 't') := by
        intro hc; exact absurd hc.2.1 (by decide)
      simp only [if_neg hne]
      rfl
    | [c2] =>
      show stripGit (c1 :: c2 :: '.' :: 'g' :: 'i' :: 't' :: []) = [c1, c2]
      rw [stripGit]
      have hne : ¬(c1 = '.' ∧ c2 = 'g' ∧ '.' = 'i' ∧ 'g' = 't') := by
        intro hc; exact absurd hc.2.2.1 (by decide)
      simp only [if_neg hne]
      have := ih (by simp [substrB, gitChars, List.isPrefixOf])
      simpa using this
    | [c2, c3] =>
      show stripGit (c1 :: c2 :: c3 :: '.' :: 'g' :: 'i' :: 't' :: []) = [c1, c2, c3]
      rw [stripGit]
      have hne : ¬(c1 = '.' ∧ c2 = 'g' ∧ c3 = 'i' ∧ '.' = 't') := by
        intro hc; exact absurd hc.2.2.2 (by decide)
      simp only [if_neg hne]
      have := ih (by simp [substrB, gitChars, List.isPrefixOf])
      simpa using this
    | c2 :: c3 :: c4 :: rest =>
      show stripGit (c1 :: c2 :: c3 :: c4 :: (rest ++ gitChars))
          = c1 :: c2 :: c3 :: c4 :: rest
      rw [stripGit]
      have hne : ¬(c1 = '.' ∧ c2 = 'g' ∧ c3 = 'i' ∧ c4 = 't') := by
        intro hc
        obtain ⟨h1, h2, h3, h4⟩ := hc
        subst h1; subst h2; subst h3; subst h4
        simp [substrB, gitChars, List.isPrefixOf] at h
      simp only [if_neg hne]
      have htail : substrB gitChars (c2 :: c3 :: c4 :: rest) = false := by
        simp [substrB] at h ⊢
        exact ⟨h.2.1, h.2.2⟩
      have := ih htail
      simpa using this

/-- C1 (counterexample): the final path segment `my.gitrepo` does not end
in `.git`, so the claim says it is used unchanged; the code instead
removes the inner `.git` occurrence and produces `myrepo`. -/
theorem get_repo_name_keeps_inner_git_false :
    get_repo_name "https://host/my.gitrepo" ≠ "my.gitrepo" ∧
    get_repo_name "https://host/my.gitrepo" = "myrepo" := by
  decide

/-- C1 (amended): the cache directory name is the URL's final path
segment with every non-overlapping occurrence of `".git"` removed
(scanning left to right); in particular a segment containing no `".git"`
is unchanged, and a segment whose only occurrence is the trailing suffix
has exactly that suffix stripped. -/
theorem get_repo_name_removes_every_git (url : String) :
    (substrB gitChars (lastSegment url) = false →
      get_repo_name url = String.mk (lastSegment url)) ∧
    (∀ cs : List Char, lastSegment url = cs ++ gitChars →
      substrB gitChars cs = false →
      get_repo_name url = String.mk cs) := by
  constructor
  · intro h
    unfold get_repo_name
    rw [stripGit_no_occ _ h]
  · intro cs hseg h
    unfold get_repo_name
    rw [hseg, stripGit_append_git _ h]

/-- Witness for the amended C1 at concrete URLs. -/
theorem get_repo_name_removes_every_git_witness :
    get_repo_name "https://host/sub/repo.git" = "repo" ∧
    get_repo_name "https://host/plain" = "plain" := by
  constructor
  · exact (get_repo_name_removes_every_git "https://host/sub/repo.git").2
      "repo".toList (by decide) (by decide)
  · exact (get_repo_name_removes_every_git "https://host/plain").1 (by decide)

/-- C2: with the cache directory absent, `get_repo_dir` issues exactly one
clone, whose branch flag is present iff a (truthy) branch was supplied and
then carries that branch; with the directory present and a branch
supplied, it issues fetch, checkout of that branch, then pull, in order;
with the directory present and no branch, it issues no command at all. -/
theorem get_repo_dir_cmds_spec (ex : Bool) (url : String) (b : Option String) :
    (ex = false →
      ∃ o : Option String,
        get_repo_dir_cmds ex url b = [GitCmd.clone url (cachePath url) o] ∧
        (o.isSome = true ↔ branchTruthy b = true) ∧
        (∀ s, o = some s → b = some s)) ∧
    (ex = true → branchTruthy b = true →
      get_repo_dir_cmds ex url b =
        [GitCmd.fetch (cachePath url),
         GitCmd.checkout (cachePath url) (b.getD ""),
         GitCmd.pull (cachePath url)]) ∧
    (ex = true → branchTruthy b = false →
      get_repo_dir_cmds ex url b = []) := by
  refine ⟨?_, ?_, ?_⟩
  · intro hex
    subst hex
    refine ⟨if branchTruthy b then b else none, by simp [get_repo_dir_cmds], ?_, ?_⟩
    · by_cases hb : branchTruthy b = true
      · cases b with
        | none => simp [branchTruthy] at hb
        | some s => simp [hb]
      · simp [hb]
    · intro s hs
      by_cases hb : branchTruthy b = true
      · simpa [hb] using hs
      · simp [hb] at hs
  · intro hex hb
    subst hex
    simp [get_repo_dir_cmds, hb]
  · intro hex hb
    subst hex
    simp [get_repo_dir_cmds, hb]

/-- Witness for C2 at concrete inputs: a fresh clone with and without a
branch, the fetch/checkout/pull path, and the no-command path. -/
theorem get_repo_dir_cmds_spec_witness :
    (∃ o : Option String,
      get_repo_dir_cmds false "https://h/r.git" (some "dev") =
        [GitCmd.clone "https://h/r.git" (cachePath "https://h/r.git") o] ∧
      (o.isSome = true ↔ branchTruthy (some "dev") = true) ∧
      (∀ s, o = some s → (some "dev" : Option String) = some s)) ∧
    get_repo_dir_cmds true "https://h/r.git" (some "dev") =
      [GitCmd.fetch (cachePath "https://h/r.git"),
       GitCmd.checkout (cachePath "https://h/r.git") "dev",
       GitCmd.pull (cachePath "https://h/r.git")] ∧
    get_repo_dir_cmds true "https://h/r.git" none = [] := by
  refine ⟨?_, ?_, ?_⟩
  · exact (get_repo_dir_cmds_spec false "https://h/r.git" (some "dev")).1 rfl
  · exact (get_repo_dir_cmds_spec true "https://h/r.git" (some "dev")).2.1 rfl (by decide)
  · exact (get_repo_dir_cmds_spec true "https://h/r.git" none).2.2 rfl (by decide)

/-! ## Step lemmas for the scanner loop body -/

/-- The empty pattern is a substring of every content (Python `'' in s`). -/
theorem substrB_nil (l : List Char) : substrB [] l = true := by
  cases l <;> simp [substrB, List.isPrefixOf]

/-- A file skipped by the extension filter leaves the scan state
untouched. -/
theorem processFile_skip (word : String) (allowed : Option (List String))
    (ic : Bool) (st : ScanState) (f : SFile)
    (h : skipByExt allowed (extKey f) = true) :
    processFile word allowed ic st f = st := by
  unfold processFile
  simp [h]

/-- A file whose read raises a decode error leaves the scan state
untouched. -/
theorem processFile_decodeError (word : String) (allowed : Option (List String))
    (ic : Bool) (st : ScanState) (f : SFile)
    (h : f.read = ReadResult.decodeError) :
    processFile word allowed ic st f = st := by
  unfold processFile
  by_cases hs : skipByExt allowed (extKey f) = true <;> simp [hs, h]

/-- The loop body appends exactly the file's `matchEntry` (if any) to the
collected list. -/
theorem processFile_collected (word : String) (allowed : Option (List String))
    (ic : Bool) (st : ScanState) (f : SFile) :
    (processFile word allowed ic st f).collected
      = st.collected ++ (matchEntry word allowed ic f).toList := by
  unfold processFile matchEntry
  by_cases hs : skipByExt allowed (extKey f) = true
  · cases hr : f.read <;> simp [hs, hr]
  · cases hr : f.read with
    | ok c =>
      by_cases hm : substrB (if ic then lowerStr word else word).data
          (if ic then lowerStr c else c).data = true <;>
        simp [hs, hr, hm, String.toList]
    | decodeError => simp [hs, hr]
    | otherError m => simp [hs, hr]

/-- The loop body updates the statistics by bumping the file's extension
entry exactly when the file is counted. -/
theorem processFile_stats (word : String) (allowed : Option (List String))
    (ic : Bool) (st : ScanState) (f : SFile) :
    (processFile word allowed ic st f).stats
      = if countedB allowed f = true then
          bumpStats st.stats (extKey f) (specFileLines f)
        else st.stats := by
  unfold processFile countedB specFileLines
  by_cases hs : skipByExt allowed (extKey f) = true
  · cases hr : f.read <;> simp [hs, hr]
  · cases hr : f.read <;> simp [hs, hr, pyNumLines]

/-- Bumping one entry adds 1 to that extension's `files` counter and
leaves every other extension's counter unchanged. -/
theorem statsFiles_bumpStats (stats : List (String × Nat × Nat)) (k : String)
    (n : Nat) (q : String) :
    statsFiles (bumpStats stats k n) q
      = statsFiles stats q + (if k = q then 1 else 0) := by
  induction stats with
  | nil => simp [bumpStats, statsFiles]
  | cons e rest ih =>
    obtain ⟨e1, fl⟩ := e
    by_cases hek : e1 = k
    · subst hek
      simp only [bumpStats, if_pos rfl, statsFiles]
      by_cases hq : e1 = q
      · simp [hq]
      · simp [hq]
    · simp only [bumpStats, if_neg hek, statsFiles]
      by_cases hq : e1 = q
      · simp only [if_pos hq]
        rw [if_neg (fun h => hek (hq ▸ h.symm))]
        omega
      · simp only [if_neg hq]
        exact ih

/-- Bumping one entry adds the file's line count to that extension's
`lines` counter and leaves every other extension's counter unchanged. -/
theorem statsLines_bumpStats (stats : List (String × Nat × Nat)) (k : String)
    (n : Nat) (q : String) :
    statsLines (bumpStats stats k n) q
      = statsLines stats q + (if k = q then n else 0) := by
  induction stats with
  | nil => simp [bumpStats, statsLines]
  | cons e rest ih =>
    obtain ⟨e1, fl⟩ := e
    by_cases hek : e1 = k
    · subst hek
      simp only [bumpStats, if_pos rfl, statsLines]
      by_cases hq : e1 = q
      · simp [hq]
      · simp [hq]
    · simp only [bumpStats, if_neg hek, statsLines]
      by_cases hq : e1 = q
      · simp only [if_pos hq]
        rw [if_neg (fun h => hek (hq ▸ h.symm))]
        omega
      · simp only [if_neg hq]
        exact ih

/-! ## Characterizations of a whole scan as one pass over the file list -/

/-- The collected match list after folding the loop body is the initial
list followed by each file's `matchEntry`, in traversal order. -/
theorem scanFold_collected (word : String) (allowed : Option (List String))
    (ic : Bool) (fs : List SFile) (st : ScanState) :
    (fs.foldl (processFile word allowed ic) st).collected
      = st.collected ++ fs.filterMap (matchEntry word allowed ic) := by
  induction fs generalizing st with
  | nil => simp
  | cons f fs ih =>
    rw [List.foldl_cons, ih, processFile_collected]
    rw [List.filterMap_cons]
    cases matchEntry word allowed ic f <;> simp

/-- The `files` counter of each extension after folding the loop body is
its initial value plus the number of counted files with that extension. -/
theorem scanFold_statsFiles (word : String) (allowed : Option (List String))
    (ic : Bool) (fs : List SFile) (st : ScanState) (q : String) :
    statsFiles (fs.foldl (processFile word allowed ic) st).stats q
      = statsFiles st.stats q
        + fs.countP (fun f => countedB allowed f && (extKey f == q)) := by
  induction fs generalizing st with
  | nil => simp
  | cons f fs ih =>
    rw [List.foldl_cons, ih, List.countP_cons]
    by_cases hc : countedB allowed f = true
    · by_cases hq : extKey f = q
      · simp [processFile_stats, hc, statsFiles_bumpStats, hq]
        omega
      · have : (extKey f == q) = false := by simp [hq]
        simp [processFile_stats, hc, statsFiles_bumpStats, this, if_neg hq]
    · have hcf : countedB allowed f = false := by
        cases h : countedB allowed f
        · rfl
        · exact absurd h hc
      simp [processFile_stats, hcf]

/-- The `lines` counter of each extension after folding the loop body is
its initial value plus the sum of the counted files' line counts for that
extension. -/
theorem scanFold_statsLines (word : String) (allowed : Option (List String))
    (ic : Bool) (fs : List SFile) (st : ScanState) (q : String) :
    statsLines (fs.foldl (processFile word allowed ic) st).stats q
      = statsLines st.stats q
        + ((fs.filter (fun f => countedB allowed f && (extKey f == q))).map
            specFileLines).sum := by
  induction fs generalizing st with
  | nil => simp
  | cons f fs ih =>
    rw [List.foldl_cons, ih, List.filter_cons]
    by_cases hc : countedB allowed f = true
    · by_cases hq : extKey f = q
      · simp [processFile_stats, hc, statsLines_bumpStats, hq]
        omega
      · have : (extKey f == q) = false := by simp [hq]
        simp [processFile_stats, hc, statsLines_bumpStats, this, if_neg hq]
    · have hcf : countedB allowed f = false := by
        cases h : countedB allowed f
        · rfl
        · exact absurd h hc
      simp [processFile_stats, hcf]

/-- A whole scan's match list is one `filterMap` pass over the files. -/
theorem scan_collected (files : List SFile) (word : String)
    (allowed : Option (List String)) (ic : Bool) :
    (search_word_in_repo files word allowed ic).collected
      = files.filterMap (matchEntry word allowed ic) := by
  unfold search_word_in_repo
  rw [scanFold_collected]
  rfl

/-- C3: a successfully read file is counted as `(number of newline
characters) + 1` lines — an empty file counts as 1 — and each extension's
final `lines` counter is the sum of that quantity over exactly the
counted (filter-passing, successfully read) files with that extension. -/
theorem scan_lines_formula (files : List SFile) (word : String)
    (allowed : Option (List String)) (ic : Bool) (q : String) :
    pyNumLines "" = 1 ∧
    (∀ c : String, pyNumLines c = c.toList.count '\n' + 1) ∧
    statsLines (search_word_in_repo files word allowed ic).stats q
      = ((files.filter (fun f => countedB allowed f && (extKey f == q))).map
          specFileLines).sum := by
  refine ⟨rfl, fun c => rfl, ?_⟩
  unfold search_word_in_repo
  rw [scanFold_statsLines]
  simp [statsLines]

/-- C4: a successfully read, filter-passing file joins the match list iff
the (lower-cased, in case-insensitive mode) search term is a substring of
the (lower-cased, in case-insensitive mode) content, and the appended
record is the pair (relative path, original unmodified content). -/
theorem scan_match_rule (files : List SFile) (word : String)
    (allowed : Option (List String)) (ic : Bool) :
    (search_word_in_repo files word allowed ic).collected
      = files.filterMap (fun f =>
          match f.read with
          | ReadResult.ok c =>
            if skipByExt allowed (extKey f) then none
            else if ic then
              (if substrB (lowerStr word).toList (lowerStr c).toList then
                some (f.relPath, c)
              else none)
            else
              (if substrB word.toList c.toList then some (f.relPath, c)
              else none)
          | _ => none) := by
  rw [scan_collected]
  congr 1
  funext f
  unfold matchEntry
  cases hr : f.read <;> cases ic <;> simp

/-- C5: a file whose (lower-cased) extension is missing from a non-empty
allow-list contributes nothing to the scan: removing it from the
traversal leaves the entire scan state unchanged. -/
theorem scan_allowlist_excludes (word : String) (l : List String) (ic : Bool)
    (files1 files2 : List SFile) (f : SFile)
    (hne : l ≠ []) (hnotin : extKey f ∉ l) :
    search_word_in_repo (files1 ++ f :: files2) word (some l) ic
      = search_word_in_repo (files1 ++ files2) word (some l) ic := by
  unfold search_word_in_repo
  rw [List.foldl_append, List.foldl_append, List.foldl_cons]
  congr 1
  apply processFile_skip
  unfold skipByExt
  have h1 : l.isEmpty = false := by
    cases hl : l.isEmpty
    · rfl
    · exact absurd (List.isEmpty_iff.mp hl) hne
  have h2 : l.contains (extKey f) = false := by
    cases hc : l.contains (extKey f)
    · rfl
    · exact absurd (List.elem_iff.mp hc) hnotin
  simp [h1, h2]
  exact hnotin

/-- C7: a file whose read fails with a decode error contributes nothing
to the scan: removing it from the traversal leaves the entire scan state
(statistics, match list, and reported errors) unchanged. -/
theorem scan_decode_error_skipped (word : String) (allowed : Option (List String))
    (ic : Bool) (files1 files2 : List SFile) (f : SFile)
    (h : f.read = ReadResult.decodeError) :
    search_word_in_repo (files1 ++ f :: files2) word allowed ic
      = search_word_in_repo (files1 ++ files2) word allowed ic := by
  unfold search_word_in_repo
  rw [List.foldl_append, List.foldl_append, List.foldl_cons]
  congr 1
  exact processFile_decodeError _ _ _ _ _ h

/-- Folding the writer over the matches with any accumulator appends the
blocks of the remaining matches. -/
theorem write_output_foldl_acc (cf : List (String × String)) (acc : String) :
    cf.foldl
      (fun a p => a ++ "<filename>" ++ p.1 ++ "</filename>" ++ "\n" ++ p.2 ++ "\n")
      acc
      = acc ++ concatBlocks cf := by
  induction cf generalizing acc with
  | nil => simp [concatBlocks]
  | cons p rest ih =>
    rw [List.foldl_cons, ih, concatBlocks]
    simp [String.append_assoc]

/-- C6: the output file is exactly the concatenation, in input order, of
`<filename>PATH</filename>`, a newline, the raw content, and a newline,
per match; a single match with path `a/b.txt` and content `hello world`
yields exactly that one block, and an empty match list yields an empty
file. -/
theorem write_output_format :
    (∀ collected : List (String × String),
      write_output collected = concatBlocks collected) ∧
    write_output [("a/b.txt", "hello world")]
      = "<filename>a/b.txt</filename>\nhello world\n" ∧
    write_output [] = "" := by
  refine ⟨?_, by decide, rfl⟩
  intro collected
  unfold write_output
  rw [write_output_foldl_acc]
  simp

/-- A file's match entry, when present, carries that file's relative
path as its first component. -/
theorem matchEntry_relPath (word : String) (allowed : Option (List String))
    (ic : Bool) (f : SFile) (p : String × String)
    (h : matchEntry word allowed ic f = some p) : p.1 = f.relPath := by
  unfold matchEntry at h
  revert h
  cases hr : f.read with
  | ok c =>
    by_cases hs : skipByExt allowed (extKey f) = true
    · simp [hs]
    · by_cases hm : substrB (if ic then lowerStr word else word).data
          (if ic then lowerStr c else c).data = true
      · simp [hs, hm, String.toList]
        intro h
        rw [← h]
      · simp [hs, hm, String.toList]
  | decodeError => simp
  | otherError m => simp

/-- The relative paths of the match entries form a sublist of the
relative paths of the traversed files. -/
theorem matchPaths_sublist (word : String) (allowed : Option (List String))
    (ic : Bool) (files : List SFile) :
    ((files.filterMap (matchEntry word allowed ic)).map Prod.fst).Sublist
      (files.map SFile.relPath) := by
  induction files with
  | nil => simp
  | cons f fs ih =>
    rw [List.filterMap_cons, List.map_cons]
    cases hm : matchEntry word allowed ic f with
    | none => exact ih.cons _
    | some p =>
      rw [List.map_cons]
      rw [matchEntry_relPath word allowed ic f p hm]
      exact ih.cons₂ _

/-- C8: with distinct relative paths, every file appears in the match
list at most once — exactly once iff its match entry is present (it
passed the filter, was read, and contains the term) — and each
extension's `files` counter counts every counted file exactly once. -/
theorem scan_counts_each_file_once (files : List SFile) (word : String)
    (allowed : Option (List String)) (ic : Bool)
    (hnd : (files.map SFile.relPath).Nodup) :
    ((search_word_in_repo files word allowed ic).collected.map Prod.fst).Nodup ∧
    (∀ f ∈ files,
      ((∃ c, (f.relPath, c) ∈ (search_word_in_repo files word allowed ic).collected)
        ↔ (matchEntry word allowed ic f).isSome = true)) ∧
    (∀ q, statsFiles (search_word_in_repo files word allowed ic).stats q
      = files.countP (fun f => countedB allowed f && (extKey f == q))) := by
  refine ⟨?_, ?_, ?_⟩
  · rw [scan_collected]
    exact hnd.sublist (matchPaths_sublist word allowed ic files)
  · intro f hf
    rw [scan_collected]
    constructor
    · rintro ⟨c, hc⟩
      obtain ⟨g, hg, hge⟩ := List.mem_filterMap.mp hc
      have hrel : g.relPath = f.relPath :=
        (matchEntry_relPath word allowed ic g (f.relPath, c) hge).symm
      have hgf : g = f := List.inj_on_of_nodup_map hnd hg hf hrel
      rw [hgf] at hge
      simp [hge]
    · intro hsome
      obtain ⟨p, hp⟩ := Option.isSome_iff_exists.mp hsome
      have h1 : p.1 = f.relPath := matchEntry_relPath word allowed ic f p hp
      refine ⟨p.2, List.mem_filterMap.mpr ⟨f, hf, ?_⟩⟩
      rw [hp, ← h1]
  · intro q
    unfold search_word_in_repo
    rw [scanFold_statsFiles]
    simp [statsFiles]

/-- C9: with the empty search term, every file that passes the extension
filter and reads successfully joins the match list, in either case
mode. -/
theorem scan_empty_word_collects_all (files : List SFile)
    (allowed : Option (List String)) (ic : Bool) (f : SFile) (c : String)
    (hf : f ∈ files) (hskip : skipByExt allowed (extKey f) = false)
    (hread : f.read = ReadResult.ok c) :
    (f.relPath, c) ∈ (search_word_in_repo files "" allowed ic).collected := by
  rw [scan_collected]
  apply List.mem_filterMap.mpr
  refine ⟨f, hf, ?_⟩
  unfold matchEntry
  rw [hread]
  simp [hskip]
  cases ic <;> simp [lowerStr, substrB_nil, String.toList]

/-- A counted file contributes at least one line. -/
theorem specFileLines_pos (allowed : Option (List String)) (f : SFile)
    (h : countedB allowed f = true) : 1 ≤ specFileLines f := by
  unfold countedB at h
  unfold specFileLines
  cases hr : f.read <;> rw [hr] at h <;> simp at h ⊢

/-- Bumping preserves the entry invariant `1 ≤ files ≤ lines` when the
bumped file contributes at least one line. -/
theorem bumpStats_inv (stats : List (String × Nat × Nat)) (k : String) (n : Nat)
    (hn : 1 ≤ n)
    (hinv : ∀ e fl, (e, fl) ∈ stats → 1 ≤ fl.1 ∧ fl.1 ≤ fl.2) :
    ∀ e fl, (e, fl) ∈ bumpStats stats k n → 1 ≤ fl.1 ∧ fl.1 ≤ fl.2 := by
  induction stats with
  | nil =>
    intro e fl h
    simp [bumpStats] at h
    obtain ⟨he, hfl⟩ := h
    rw [hfl]
    exact ⟨Nat.le_refl 1, hn⟩
  | cons p rest ih =>
    obtain ⟨e1, fl1⟩ := p
    have hhead := hinv e1 fl1 (List.mem_cons_self _ _)
    have htail : ∀ e fl, (e, fl) ∈ rest → 1 ≤ fl.1 ∧ fl.1 ≤ fl.2 :=
      fun e fl hm => hinv e fl (List.mem_cons_of_mem _ hm)
    intro e fl h
    by_cases hek : e1 = k
    · rw [bumpStats, if_pos hek] at h
      rcases List.mem_cons.mp h with h1 | h2
      · have := Prod.mk.injEq .. ▸ h1
        obtain ⟨he, hfl⟩ := Prod.mk.inj h1
        rw [hfl]
        constructor
        · exact Nat.le_add_left 1 fl1.1
        · have := hhead.2
          omega
      · exact htail e fl h2
    · rw [bumpStats, if_neg hek] at h
      rcases List.mem_cons.mp h with h1 | h2
      · obtain ⟨he, hfl⟩ := Prod.mk.inj h1
        rw [hfl]
        exact hhead
      · exact ih htail e fl h2

/-- Folding the loop body preserves the entry invariant
`1 ≤ files ≤ lines`. -/
theorem scanFold_stats_inv (word : String) (allowed : Option (List String))
    (ic : Bool) (fs : List SFile) (st : ScanState)
    (hinv : ∀ e fl, (e, fl) ∈ st.stats → 1 ≤ fl.1 ∧ fl.1 ≤ fl.2) :
    ∀ e fl, (e, fl) ∈ (fs.foldl (processFile word allowed ic) st).stats →
      1 ≤ fl.1 ∧ fl.1 ≤ fl.2 := by
  induction fs generalizing st with
  | nil => exact hinv
  | cons f fs ih =>
    rw [List.foldl_cons]
    apply ih
    rw [processFile_stats]
    by_cases hc : countedB allowed f = true
    · rw [if_pos hc]
      exact bumpStats_inv st.stats (extKey f) (specFileLines f)
        (specFileLines_pos allowed f hc) hinv
    · rw [if_neg hc]
      exact hinv

/-- C10: after any scan, every extension entry present in the statistics
has `files ≥ 1` and `lines ≥ files` (each counted file adds exactly 1
file and at least 1 line), and extending the traversal never decreases
either counter. -/
theorem scan_stats_entries_positive (files : List SFile) (word : String)
    (allowed : Option (List String)) (ic : Bool) :
    (∀ e fl, (e, fl) ∈ (search_word_in_repo files word allowed ic).stats →
        1 ≤ fl.1 ∧ fl.1 ≤ fl.2) ∧
    (∀ more q,
      statsFiles (search_word_in_repo files word allowed ic).stats q
        ≤ statsFiles (search_word_in_repo (files ++ more) word allowed ic).stats q ∧
      statsLines (search_word_in_repo files word allowed ic).stats q
        ≤ statsLines (search_word_in_repo (files ++ more) word allowed ic).stats q) := by
  constructor
  · apply scanFold_stats_inv
    intro e fl h
    simp at h
  · intro more q
    unfold search_word_in_repo
    rw [scanFold_statsFiles, scanFold_statsFiles, scanFold_statsLines,
      scanFold_statsLines]
    constructor
    · simp only [List.countP_append]
      omega
    · simp only [List.filter_append, List.map_append, List.sum_append]
      omega

/-- Witness for C5: dropping a `.txt` file from a scan restricted to
`.py` changes nothing. -/
theorem scan_allowlist_excludes_witness :
    search_word_in_repo
      [SFile.mk "a.py" "a.py" (ReadResult.ok "x"),
       SFile.mk "b.txt" "b.txt" (ReadResult.ok "x"),
       SFile.mk "c.py" "c.py" (ReadResult.ok "y")]
      "x" (some [".py"]) false
    = search_word_in_repo
      [SFile.mk "a.py" "a.py" (ReadResult.ok "x"),
       SFile.mk "c.py" "c.py" (ReadResult.ok "y")]
      "x" (some [".py"]) false := by
  exact scan_allowlist_excludes "x" [".py"] false
    [SFile.mk "a.py" "a.py" (ReadResult.ok "x")]
    [SFile.mk "c.py" "c.py" (ReadResult.ok "y")]
    (SFile.mk "b.txt" "b.txt" (ReadResult.ok "x"))
    (by decide) (by decide)

/-- Witness for C7: dropping an undecodable file from a scan changes
nothing. -/
theorem scan_decode_error_skipped_witness :
    search_word_in_repo
      [SFile.mk "a.txt" "a.txt" (ReadResult.ok "x"),
       SFile.mk "b.bin" "b.bin" ReadResult.decodeError,
       SFile.mk "c.txt" "c.txt" (ReadResult.ok "y")]
      "x" none false
    = search_word_in_repo
      [SFile.mk "a.txt" "a.txt" (ReadResult.ok "x"),
       SFile.mk "c.txt" "c.txt" (ReadResult.ok "y")]
      "x" none false := by
  exact scan_decode_error_skipped "x" none false
    [SFile.mk "a.txt" "a.txt" (ReadResult.ok "x")]
    [SFile.mk "c.txt" "c.txt" (ReadResult.ok "y")]
    (SFile.mk "b.bin" "b.bin" ReadResult.decodeError)
    rfl

/-- Witness for C8 on a concrete two-file scan. -/
theorem scan_counts_each_file_once_witness :
    ((search_word_in_repo
        [SFile.mk "a.txt" "a.txt" (ReadResult.ok "hello"),
         SFile.mk "b.txt" "b.txt" (ReadResult.ok "hi\nhello")]
        "hello" none false).collected.map Prod.fst).Nodup ∧
    statsFiles (search_word_in_repo
        [SFile.mk "a.txt" "a.txt" (ReadResult.ok "hello"),
         SFile.mk "b.txt" "b.txt" (ReadResult.ok "hi\nhello")]
        "hello" none false).stats ".txt"
      = List.countP (fun f => countedB none f && (extKey f == ".txt"))
          [SFile.mk "a.txt" "a.txt" (ReadResult.ok "hello"),
           SFile.mk "b.txt" "b.txt" (ReadResult.ok "hi\nhello")] := by
  constructor
  · exact (scan_counts_each_file_once
      [SFile.mk "a.txt" "a.txt" (ReadResult.ok "hello"),
       SFile.mk "b.txt" "b.txt" (ReadResult.ok "hi\nhello")]
      "hello" none false (by decide)).1
  · exact (scan_counts_each_file_once
      [SFile.mk "a.txt" "a.txt" (ReadResult.ok "hello"),
       SFile.mk "b.txt" "b.txt" (ReadResult.ok "hi\nhello")]
      "hello" none false (by decide)).2.2 ".txt"

/-- Witness for C9: with the empty search term a readable file is
collected. -/
theorem scan_empty_word_collects_all_witness :
    ("a.txt", "abc") ∈ (search_word_in_repo
      [SFile.mk "a.txt" "a.txt" (ReadResult.ok "abc")] "" none false).collected := by
  exact scan_empty_word_collects_all
    [SFile.mk "a.txt" "a.txt" (ReadResult.ok "abc")]
    none false (SFile.mk "a.txt" "a.txt" (ReadResult.ok "abc")) "abc"
    (by decide) (by decide) rfl

/-- Witness for C10 on a concrete one-file scan and a concrete
extension. -/
theorem scan_stats_entries_positive_witness :
    ((1 : Nat) ≤ 1 ∧ (1 : Nat) ≤ 2) ∧
    statsFiles (search_word_in_repo
        [SFile.mk "a.txt" "a.txt" (ReadResult.ok "x\ny")] "x" none false).stats ".txt"
      ≤ statsFiles (search_word_in_repo
          ([SFile.mk "a.txt" "a.txt" (ReadResult.ok "x\ny")]
            ++ [SFile.mk "b.txt" "b.txt" (ReadResult.ok "z")])
          "x" none false).stats ".txt" := by
  constructor
  · exact (scan_stats_entries_positive
      [SFile.mk "a.txt" "a.txt" (ReadResult.ok "x\ny")] "x" none false).1
      ".txt" (1, 2) (by decide)
  · exact ((scan_stats_entries_positive
      [SFile.mk "a.txt" "a.txt" (ReadResult.ok "x\ny")] "x" none false).2
      [SFile.mk "b.txt" "b.txt" (ReadResult.ok "z")] ".txt").1
